import Mathlib

/-!
# Verification of the collocation-extraction engine

Shallow embedding of the counting and scoring core of the `colocations`
repository (`analyze_treebank.py`, `analyze_cicero_stanza.py`,
`analyze_latin.py`, `analyze_cicero.py`, `analyze_collocations.py`,
`analyze_entropy.py`).

Modelling conventions:
* Python `collections.Counter` dictionaries are modelled as insertion-ordered
  association lists `Table α := List (α × Nat)`; `incr` bumps the first
  matching entry or appends a fresh one, so key order is insertion order,
  exactly as in Python 3.7+ dicts.
* Python strings are Lean `String`s; `str.lower()` is modelled on the list of
  characters (`Char.toLower` per character, which agrees with Python on the
  ASCII range used by these corpora scripts), and lexicographic string
  comparison (`sorted((a, b))`) is modelled by code-point comparison
  `strLt`, which is Python's comparison for these strings.
* Nested `for i in range(...)` / `for j in range(i+1, end)` loops are
  modelled as left folds over `List.range` / `rangeFromTo`, which perform
  the iterations in the same order.
* Floating-point PMI values are modelled exactly: each scored record stores
  the numerator `count·total_unigrams²` and denominator
  `total_pairs·c1·c2` of the (exact) ratio whose `log2` the code takes.
  Since `log2` is strictly monotone on positives and every scored ratio is
  positive (proved below), sorting descending by the exact ratio performs
  the same comparisons as the code's stable descending sort by the float
  `pmi` key.  The code's `try/except ValueError: pmi = 0` guard around
  `math.log2` is modelled in theorem statements by
  `if 0 < x then Real.logb 2 x else 0`.
* Division is total in Lean; the Python code would raise an uncaught
  `ZeroDivisionError` when `total_pairs`, `total_unigrams` or a unigram
  count is zero.  All theorems about scored records carry (or derive)
  positivity of these quantities, so the divergence is never exercised.
-/

namespace Colloc

/-- A frequency table: insertion-ordered association list, modelling a
Python `collections.Counter` / dict. -/
abbrev Table (α : Type) := List (α × Nat)

/-- `tbl[k]` with default `0`, i.e. `Counter.__getitem__`. -/
def lookup {α : Type} [DecidableEq α] : Table α → α → Nat
  | [], _ => 0
  | (a, n) :: t, k => if a = k then n else lookup t k

/-- `tbl[k] += 1` on a `Counter`: bump the first matching entry, or append a
fresh entry with count 1 (dicts keep insertion order). -/
def incr {α : Type} [DecidableEq α] : Table α → α → Table α
  | [], k => [(k, 1)]
  | (a, n) :: t, k => if a = k then (a, n + 1) :: t else (a, n) :: incr t k

/-- `tbl[k] += m`: additive update by an arbitrary amount, used for merging
tables. -/
def addN {α : Type} [DecidableEq α] : Table α → α → Nat → Table α
  | [], k, m => [(k, m)]
  | (a, n) :: t, k, m => if a = k then (a, n + m) :: t else (a, n) :: addN t k m

/-- Additive merge of two frequency tables (`Counter.update`): every entry of
`t₂` is added into `t₁`. -/
def mergeTable {α : Type} [DecidableEq α] (t₁ t₂ : Table α) : Table α :=
  t₂.foldl (fun acc kn => addN acc kn.1 kn.2) t₁

/-- Sum of all counts stored in a table (`sum(tbl.values())`). -/
def sumValues {α : Type} (t : Table α) : Nat := (t.map Prod.snd).sum

/-- The keys of a table, in insertion order. -/
def keys {α : Type} (t : Table α) : List α := t.map Prod.fst

/-- Python `range(a, b)` as a list. -/
def rangeFromTo (a b : Nat) : List Nat := (List.range (b - a)).map (a + ·)

/-- Lexicographic comparison of character lists by code point; this is how
Python compares strings in `sorted((current_word, next_word))`. -/
def charListLt : List Char → List Char → Bool
  | _, [] => false
  | [], _ :: _ => true
  | a :: as, b :: bs => if a < b then true else if b < a then false else charListLt as bs

/-- Python `a < b` on strings (code-point lexicographic order). -/
def strLt (a b : String) : Bool := charListLt a.data b.data

/-- Python `s.lower()`, modelled character-wise (`Char.toLower` agrees with
Python's lower-casing on the ASCII range these scripts process). -/
def toLowerStr (s : String) : String := ⟨s.data.map Char.toLower⟩

/-- `re.sub(r'[^a-z]+', '', s)`: keep only the characters `a`–`z`
(`analyze_latin.py` line 112). -/
def stripNonAlpha (s : String) : String :=
  ⟨s.data.filter fun c => decide ('a' ≤ c ∧ c ≤ 'z')⟩

/-- The key under which a co-occurrence is recorded.
`orderPreserving = true`: `pair = (current_word, next_word)`
(`analyze_treebank.py` line 133).
`orderPreserving = false`: `pair = tuple(sorted((current_word, next_word)))`
(`analyze_cicero_stanza.py` line 93). -/
def pairKey (orderPreserving : Bool) (a b : String) : String × String :=
  if orderPreserving then (a, b) else if strLt b a then (b, a) else (a, b)

/-- Body of the inner pair loop (`analyze_treebank.py` lines 128–135,
`analyze_cicero_stanza.py` lines 88–95): skip when the two lemmas are equal,
otherwise increment the pair table and the running total. -/
def pairStep (op : Bool) (s : List String) (acc : Table (String × String) × Nat)
    (ij : Nat × Nat) : Table (String × String) × Nat :=
  if s.getD ij.1 "" = s.getD ij.2 "" then acc
  else (incr acc.1 (pairKey op (s.getD ij.1 "") (s.getD ij.2 "")), acc.2 + 1)

/-- The windowed pair-counting pass, parameterised by the key mode and by the
exclusive lookahead bound: for every `i in range(len(s))`, for every
`j in range(i+1, min(i+lookahead, len(s)))`, run `pairStep`.
`analyze_treebank.py` lines 123–135 (and `analyze_latin.py` 133–145,
`analyze_cicero.py` 128–135, `analyze_collocations.py` 76–89) use
`lookahead = window_size`; `analyze_cicero_stanza.py` lines 81–95 uses
`lookahead = window_size + 1` (`end_window = min(i + window_size + 1, ...)`). -/
def countPairs (op : Bool) (lookahead : Nat) (s : List String) :
    Table (String × String) × Nat :=
  (List.range s.length).foldl
    (fun acc i =>
      (rangeFromTo (i + 1) (min (i + lookahead) s.length)).foldl
        (fun acc2 j => pairStep op s acc2 (i, j)) acc)
    ([], 0)

/-- The order-preserving counter of `analyze_treebank.py` lines 123–135:
`end_window = min(i + window_size, len(all_lemmas))`. -/
def treebankPairs (s : List String) (window_size : Nat) : Table (String × String) × Nat :=
  countPairs true window_size s

/-- The order-independent counter of `analyze_cicero_stanza.py` lines 81–95:
`end_window = min(i + window_size + 1, len(file_lemmas))`, sorted keys. -/
def stanzaPairs (s : List String) (window_size : Nat) : Table (String × String) × Nat :=
  countPairs false (window_size + 1) s

/-- The flattened list of `(i, j)` index pairs visited by the nested loops of
`countPairs`, in visit order. -/
def pairIndices (lookahead len : Nat) : List (Nat × Nat) :=
  (List.range len).flatMap
    (fun i => (rangeFromTo (i + 1) (min (i + lookahead) len)).map (fun j => (i, j)))

/-- Does the index pair `ij` contribute an increment for key `k`? -/
def pairPred (op : Bool) (s : List String) (k : String × String) (ij : Nat × Nat) : Bool :=
  decide (s.getD ij.1 "" ≠ s.getD ij.2 "") &&
    decide (pairKey op (s.getD ij.1 "") (s.getD ij.2 "") = k)

/-- Does the index pair `ij` contribute an increment to `total_pairs`? -/
def diffPred (s : List String) (ij : Nat × Nat) : Bool :=
  decide (s.getD ij.1 "" ≠ s.getD ij.2 "")

/-- The cross-boundary index pairs: first position in the first segment
(`i < len1`), second position in the second segment (`len1 ≤ j`), within the
window of the concatenated stream. -/
def crossIndices (lookahead len1 len : Nat) : List (Nat × Nat) :=
  (List.range len1).flatMap
    (fun i => (rangeFromTo len1 (min (i + lookahead) len)).map (fun j => (i, j)))

/-- Pair table and total contributed by exactly the cross-boundary pairs of
`s1 ++ s2` (those the per-segment counts miss). -/
def crossPairs (op : Bool) (lookahead : Nat) (s1 s2 : List String) :
    Table (String × String) × Nat :=
  (crossIndices lookahead s1.length (s1.length + s2.length)).foldl
    (pairStep op (s1 ++ s2)) ([], 0)

/-- Body of the trigram loop (`analyze_treebank.py` lines 138–146): record
`(s[i], s[i+1], s[i+2])` only if the three lemmas are pairwise distinct. -/
def trigramStep (s : List String) (acc : Table (String × String × String)) (i : Nat) :
    Table (String × String × String) :=
  if s.getD i "" ≠ s.getD (i + 1) "" ∧ s.getD (i + 1) "" ≠ s.getD (i + 2) "" ∧
      s.getD i "" ≠ s.getD (i + 2) "" then
    incr acc (s.getD i "", s.getD (i + 1) "", s.getD (i + 2) "")
  else acc

/-- Strict-adjacency trigram counting: `for i in range(len(all_lemmas) - 2)`
(`analyze_treebank.py` lines 138–146; identically in `analyze_latin.py`,
`analyze_cicero.py`, `analyze_collocations.py`). -/
def countTrigrams (s : List String) : Table (String × String × String) :=
  (List.range (s.length - 2)).foldl (trigramStep s) []

/-- `collections.Counter(all_lemmas)`: unigram counts of the lemma stream
(`analyze_treebank.py` line 115). -/
def unigramTable (s : List String) : Table String := s.foldl incr []

/-- One scored collocation, `(pair, pmi, count)` of the Python code
(`analyze_treebank.py` line 171).  The float `pmi = log2(p_pair/(p_w1*p_w2))`
is represented exactly: `num / den` with `num = count·total_unigrams²` and
`den = total_pairs·c1·c2` is the exact value of
`(count/total_pairs) / ((c1/total_unigrams)·(c2/total_unigrams))`, the
argument of `log2`. -/
structure PMIRec where
  pair : String × String
  num : Nat
  den : Nat
  count : Nat
  deriving DecidableEq

/-- The PMI scoring loop (`analyze_treebank.py` lines 154–171): for every
table entry in insertion order, skip it if `count < min_occurrence`,
otherwise emit a record for `log2((count/total_pairs) /
((c1/total_unigrams)·(c2/total_unigrams)))`. -/
def pmiEntries (tbl : Table (String × String)) (uni : Table String)
    (tp tu minOcc : Nat) : List PMIRec :=
  tbl.filterMap fun pc =>
    if pc.2 < minOcc then none
    else some ⟨pc.1, pc.2 * tu * tu, tp * lookup uni pc.1.1 * lookup uni pc.1.2, pc.2⟩

/-- "record `a` may come before record `b` in descending PMI order": the exact
ratio of `a` is at least that of `b`, by cross-multiplication.  For the
positive denominators produced by any actual run this orders records exactly
as the code's descending sort by the float `pmi` key, because `log2` is
strictly monotone on positives. -/
def pmiGeB (a b : PMIRec) : Bool := decide (b.num * a.den ≤ a.num * b.den)

/-- Insert into a sorted list, before the first element `b` with `le a b`. -/
def ordInsert {α : Type} (le : α → α → Bool) (a : α) : List α → List α
  | [] => [a]
  | b :: l => if le a b then a :: b :: l else b :: ordInsert le a l

/-- Stable insertion sort; for a total preorder this produces the same list
as Python's stable `list.sort`. -/
def insSort {α : Type} (le : α → α → Bool) : List α → List α
  | [] => []
  | a :: l => ordInsert le a (insSort le l)

/-- The full PMI stage (`analyze_treebank.py` lines 148–173): score every
pair meeting the threshold, then sort descending by PMI
(`pmi_scores.sort(key=lambda x: x[1], reverse=True)`, a stable descending
sort). -/
def pmiScores (tbl : Table (String × String)) (uni : Table String)
    (tp tu minOcc : Nat) : List PMIRec :=
  insSort pmiGeB (pmiEntries tbl uni tp tu minOcc)

/-- `STOP_POS` of `analyze_treebank.py` lines 65–69 (base set plus `CCONJ`);
`analyze_cicero.py` line 84 uses the same set. -/
def STOP_POS_treebank : List String :=
  ["PUNCT", "SYM", "NUM", "X", "PRON", "AUX", "ADP", "SCONJ", "PART", "DET", "CCONJ"]

/-- `BLACKLIST` of `analyze_treebank.py` line 72. -/
def BLACKLIST_treebank : List String :=
  ["calendar", "expression", "monetary", "kal.", "non.", "id."]

/-- `STOP_POS` of `analyze_latin.py` line 86. -/
def STOP_POS_latin : List String := ["PUNCT", "SYM", "NUM", "X"]

/-- `STOP_POS` of `analyze_entropy.py` line 52. -/
def STOP_POS_entropy : List String := ["PUNCT", "SYM", "NUM", "X"]

/-- Token admission of `analyze_treebank.py` lines 96–107: reject stop POS
and empty lemmas, lower-case, reject blacklisted lemmas, then require
`len(lemma) > 1 and lemma != '_'`. -/
def treebankAdmit (upos lem : String) : Option String :=
  if upos ∈ STOP_POS_treebank ∨ lem = "" then none
  else if toLowerStr lem ∈ BLACKLIST_treebank then none
  else if 1 < (toLowerStr lem).length ∧ toLowerStr lem ≠ "_" then some (toLowerStr lem)
  else none

/-- Token admission of `analyze_latin.py` lines 101–115: reject stop POS and
empty lemmas, lower-case, strip all non-`a`–`z` characters, then require
`len(lemma_clean) > 1`. -/
def latinAdmit (upos lem : String) : Option String :=
  if upos ∈ STOP_POS_latin ∨ lem = "" then none
  else if 1 < (stripNonAlpha (toLowerStr lem)).length then
    some (stripNonAlpha (toLowerStr lem))
  else none

/-- Token admission of `analyze_entropy.py` lines 91–98: lower-case the
lemma field, then require only `upos not in STOP_POS and lemma != '_'`
(no minimum-length check). -/
def entropyAdmit (upos lem : String) : Option String :=
  if upos ∉ STOP_POS_entropy ∧ toLowerStr lem ≠ "_" then some (toLowerStr lem) else none

/-- Substring containment, Python's `pat in text`. -/
def containsSub (pat text : String) : Prop := pat.data <:+: text.data

instance (pat text : String) : Decidable (containsSub pat text) :=
  inferInstanceAs (Decidable (pat.data <:+: text.data))

/-- Marker substrings of the Cicero rule group (`analyze_entropy.py` line 13). -/
def ciceroMarkers : List String := ["phi0474", "cicero", "atticum", "officiis"]

/-- Marker substrings of the Caesar rule group (`analyze_entropy.py` line 15). -/
def caesarMarkers : List String := ["phi0448", "caesar", "gallico"]

/-- Marker substrings of the Vergil rule group (`analyze_entropy.py` line 17). -/
def vergilMarkers : List String := ["phi0690", "vergil", "aeneid"]

/-- Marker substrings of the Ovid rule group (`analyze_entropy.py` line 19). -/
def ovidMarkers : List String := ["phi0959", "ovid", "metamorphoses"]

/-- Marker substrings of the Jerome rule group (`analyze_entropy.py` line 21). -/
def jeromeMarkers : List String := ["jerome", "vulgate", "testamentum"]

/-- All marker substrings of all rule groups, in priority order. -/
def allMarkers : List String :=
  ciceroMarkers ++ caesarMarkers ++ vergilMarkers ++ ovidMarkers ++ jeromeMarkers

/-- Does some marker of the group occur in the text?  Models the
`'m1' in meta_text or 'm2' in meta_text or ...` chains. -/
def anyMarker (ms : List String) (text : String) : Prop :=
  ∃ m ∈ ms, containsSub m text

instance (ms : List String) (text : String) : Decidable (anyMarker ms text) :=
  List.decidableBEx _ ms

/-- The provenance classifier `get_author` of `analyze_entropy.py` lines
6–24: join the metadata lines with spaces, lower-case, and return the label
of the first rule group one of whose markers occurs; `'Other'` if none. -/
def get_author (metadata_lines : List String) : String :=
  if anyMarker ciceroMarkers (toLowerStr (String.intercalate " " metadata_lines)) then
    "Cicero"
  else if anyMarker caesarMarkers (toLowerStr (String.intercalate " " metadata_lines)) then
    "Caesar"
  else if anyMarker vergilMarkers (toLowerStr (String.intercalate " " metadata_lines)) then
    "Vergil"
  else if anyMarker ovidMarkers (toLowerStr (String.intercalate " " metadata_lines)) then
    "Ovid"
  else if anyMarker jeromeMarkers (toLowerStr (String.intercalate " " metadata_lines)) then
    "Jerome (Vulgate)"
  else "Other"

/-! ## Basic lemmas about frequency tables -/

theorem keys_cons {α : Type} (a : α) (n : Nat) (t : Table α) :
    keys ((a, n) :: t) = a :: keys t := rfl

theorem sumValues_cons {α : Type} (a : α) (n : Nat) (t : Table α) :
    sumValues ((a, n) :: t) = n + sumValues t := by
  simp [sumValues]

theorem lookup_incr {α : Type} [DecidableEq α] (t : Table α) (k k' : α) :
    lookup (incr t k) k' = lookup t k' + if k = k' then 1 else 0 := by
  induction t with
  | nil => by_cases h : k = k' <;> simp [incr, lookup, h]
  | cons an t ih =>
    obtain ⟨a, n⟩ := an
    simp only [incr]
    by_cases hak : a = k
    · subst hak
      rw [if_pos rfl]
      by_cases h : a = k' <;> simp [lookup, h]
    · rw [if_neg hak]
      by_cases h : a = k'
      · have hkk : ¬ k = k' := fun hk => hak (h.trans hk.symm)
        simp [lookup, h, hkk]
      · simp [lookup, h, ih]

theorem sumValues_incr {α : Type} [DecidableEq α] (t : Table α) (k : α) :
    sumValues (incr t k) = sumValues t + 1 := by
  induction t with
  | nil => simp [incr, sumValues]
  | cons an t ih =>
    obtain ⟨a, n⟩ := an
    by_cases hak : a = k <;> simp [incr, sumValues, hak] <;>
      simp [sumValues] at ih <;> omega

theorem mem_keys_incr {α : Type} [DecidableEq α] (t : Table α) (k a : α) :
    a ∈ keys (incr t k) ↔ a ∈ keys t ∨ a = k := by
  induction t with
  | nil => simp [incr, keys]
  | cons bn t ih =>
    obtain ⟨b, n⟩ := bn
    simp only [incr]
    by_cases hbk : b = k
    · subst hbk
      rw [if_pos rfl, keys_cons, keys_cons]
      simp only [List.mem_cons]
      tauto
    · rw [if_neg hbk, keys_cons, keys_cons]
      simp only [List.mem_cons, ih]
      tauto

theorem nodup_keys_incr {α : Type} [DecidableEq α] (t : Table α) (k : α)
    (h : (keys t).Nodup) : (keys (incr t k)).Nodup := by
  induction t with
  | nil => simp [incr, keys]
  | cons bn t ih =>
    obtain ⟨b, n⟩ := bn
    rw [keys_cons, List.nodup_cons] at h
    simp only [incr]
    by_cases hbk : b = k
    · subst hbk
      rw [if_pos rfl, keys_cons, List.nodup_cons]
      exact h
    · rw [if_neg hbk, keys_cons, List.nodup_cons]
      refine ⟨fun hmem => ?_, ih h.2⟩
      rcases (mem_keys_incr t k b).mp hmem with hb | hb
      · exact h.1 hb
      · exact hbk hb

theorem lookup_addN {α : Type} [DecidableEq α] (t : Table α) (k k' : α) (m : Nat) :
    lookup (addN t k m) k' = lookup t k' + if k = k' then m else 0 := by
  induction t with
  | nil => by_cases h : k = k' <;> simp [addN, lookup, h]
  | cons an t ih =>
    obtain ⟨a, n⟩ := an
    simp only [addN]
    by_cases hak : a = k
    · subst hak
      rw [if_pos rfl]
      by_cases h : a = k' <;> simp [lookup, h]
    · rw [if_neg hak]
      by_cases h : a = k'
      · have hkk : ¬ k = k' := fun hk => hak (h.trans hk.symm)
        simp [lookup, h, hkk]
      · simp [lookup, h, ih]

theorem lookup_eq_zero_of_not_mem {α : Type} [DecidableEq α] (t : Table α) (k : α)
    (h : k ∉ keys t) : lookup t k = 0 := by
  induction t with
  | nil => rfl
  | cons an t ih =>
    obtain ⟨a, n⟩ := an
    rw [keys_cons, List.mem_cons] at h
    push_neg at h
    have hak : ¬ a = k := fun hh => h.1 hh.symm
    simp only [lookup, if_neg hak]
    exact ih h.2

theorem mem_keys_of_mem {α : Type} [DecidableEq α] {t : Table α} {k : α} {n : Nat}
    (h : (k, n) ∈ t) : k ∈ keys t := by
  have := List.mem_map_of_mem Prod.fst h
  simpa [keys] using this

theorem lookup_of_mem_nodup {α : Type} [DecidableEq α] (t : Table α) (k : α) (n : Nat)
    (hnd : (keys t).Nodup) (hmem : (k, n) ∈ t) : lookup t k = n := by
  induction t with
  | nil => simp at hmem
  | cons an t ih =>
    obtain ⟨a, m⟩ := an
    rw [keys_cons, List.nodup_cons] at hnd
    rcases List.mem_cons.mp hmem with heq | hmem'
    · cases heq
      simp [lookup]
    · have hka : ¬ a = k := by
        intro hak
        subst hak
        exact hnd.1 (mem_keys_of_mem hmem')
      simp only [lookup, if_neg hka]
      exact ih hnd.2 hmem'

theorem lookup_le_sumValues {α : Type} [DecidableEq α] (t : Table α) (k : α) :
    lookup t k ≤ sumValues t := by
  induction t with
  | nil => simp [lookup, sumValues]
  | cons an t ih =>
    obtain ⟨a, n⟩ := an
    rw [sumValues_cons]
    by_cases hak : a = k
    · simp only [lookup, if_pos hak]
      omega
    · simp only [lookup, if_neg hak]
      omega

theorem lookup_mergeTable {α : Type} [DecidableEq α] (t₁ t₂ : Table α) (k : α)
    (hnd : (keys t₂).Nodup) :
    lookup (mergeTable t₁ t₂) k = lookup t₁ k + lookup t₂ k := by
  induction t₂ generalizing t₁ with
  | nil => simp [mergeTable, lookup]
  | cons an t ih =>
    obtain ⟨a, n⟩ := an
    rw [keys_cons, List.nodup_cons] at hnd
    have step : mergeTable t₁ ((a, n) :: t) = mergeTable (addN t₁ a n) t := rfl
    rw [step, ih _ hnd.2, lookup_addN]
    by_cases hak : a = k
    · subst hak
      have hz : lookup t a = 0 := lookup_eq_zero_of_not_mem t a hnd.1
      simp [lookup, hz]
    · simp only [lookup, if_neg hak]
      omega

/-! ## Lemmas about ranges and indexing -/

theorem mem_rangeFromTo {a b x : Nat} : x ∈ rangeFromTo a b ↔ a ≤ x ∧ x < b := by
  simp only [rangeFromTo, List.mem_map, List.mem_range]
  constructor
  · rintro ⟨y, hy, rfl⟩
    omega
  · rintro ⟨h1, h2⟩
    exact ⟨x - a, by omega, by omega⟩

theorem rangeFromTo_eq_nil {a b : Nat} (h : b ≤ a) : rangeFromTo a b = [] := by
  simp [rangeFromTo, Nat.sub_eq_zero_of_le h]

theorem rangeFromTo_append {a b c : Nat} (hab : a ≤ b) (hbc : b ≤ c) :
    rangeFromTo a c = rangeFromTo a b ++ rangeFromTo b c := by
  have hsplit : c - a = (b - a) + (c - b) := by omega
  rw [rangeFromTo, hsplit, List.range_add, List.map_append]
  congr 1
  rw [rangeFromTo, List.map_map]
  refine List.map_congr_left fun x hx => ?_
  simp only [Function.comp_apply]
  omega

theorem rangeFromTo_shift (c a b : Nat) :
    rangeFromTo (c + a) (c + b) = (rangeFromTo a b).map (c + ·) := by
  have h : c + b - (c + a) = b - a := by omega
  rw [rangeFromTo, h, rangeFromTo, List.map_map]
  refine List.map_congr_left fun x hx => ?_
  simp only [Function.comp_apply]
  omega

theorem getD_append_left {α : Type} (l1 l2 : List α) (d : α) (n : Nat)
    (h : n < l1.length) : (l1 ++ l2).getD n d = l1.getD n d := by
  induction l1 generalizing n with
  | nil => simp at h
  | cons a t ih =>
    cases n with
    | zero => rfl
    | succ m => simpa using ih m (by simpa using h)

theorem getD_append_add {α : Type} (l1 l2 : List α) (d : α) (n : Nat) :
    (l1 ++ l2).getD (l1.length + n) d = l2.getD n d := by
  induction l1 with
  | nil => simp
  | cons a t ih => simpa [Nat.succ_add] using ih

/-! ## The nested pair loops as a fold over the flattened index list -/

theorem foldl_flatMap {α β γ : Type} (f : β → α → β) (g : γ → List α) (l : List γ)
    (init : β) :
    (l.flatMap g).foldl f init = l.foldl (fun acc c => (g c).foldl f acc) init := by
  induction l generalizing init with
  | nil => rfl
  | cons c l ih => rw [List.flatMap_cons, List.foldl_append, List.foldl_cons, ih]

theorem countPairs_eq_foldl (op : Bool) (la : Nat) (s : List String) :
    countPairs op la s = (pairIndices la s.length).foldl (pairStep op s) ([], 0) := by
  unfold countPairs pairIndices
  rw [foldl_flatMap]
  simp only [List.foldl_map]

theorem foldl_pairStep_fst_lookup (op : Bool) (s : List String) (k : String × String) :
    ∀ (L : List (Nat × Nat)) (acc : Table (String × String) × Nat),
      lookup ((L.foldl (pairStep op s) acc).1) k
        = lookup acc.1 k + L.countP (pairPred op s k) := by
  intro L
  induction L with
  | nil => intro acc; simp
  | cons ij L ih =>
    intro acc
    rw [List.foldl_cons, ih, List.countP_cons]
    by_cases h : s.getD ij.1 "" = s.getD ij.2 ""
    · have hp : pairPred op s k ij = false := by
        unfold pairPred
        rw [decide_eq_false (fun hne => hne h), Bool.false_and]
      have hs : pairStep op s acc ij = acc := by
        unfold pairStep
        rw [if_pos h]
      rw [hp, hs]
      simp
    · have hs : pairStep op s acc ij
          = (incr acc.1 (pairKey op (s.getD ij.1 "") (s.getD ij.2 "")), acc.2 + 1) := by
        unfold pairStep
        rw [if_neg h]
      by_cases hk : pairKey op (s.getD ij.1 "") (s.getD ij.2 "") = k
      · have hp : pairPred op s k ij = true := by
          unfold pairPred
          rw [decide_eq_true h, decide_eq_true hk]
          rfl
        rw [hs]
        show lookup (incr acc.1 (pairKey op (s.getD ij.1 "") (s.getD ij.2 ""))) k
            + List.countP (pairPred op s k) L = _
        rw [lookup_incr, if_pos hk, hp]
        have hone : (if (true : Bool) then (1 : Nat) else 0) = 1 := rfl
        rw [hone]
        omega
      · have hp : pairPred op s k ij = false := by
          unfold pairPred
          rw [decide_eq_true h, decide_eq_false hk]
          rfl
        rw [hs]
        show lookup (incr acc.1 (pairKey op (s.getD ij.1 "") (s.getD ij.2 ""))) k
            + List.countP (pairPred op s k) L = _
        rw [lookup_incr, if_neg hk, hp]
        simp

theorem foldl_pairStep_snd (op : Bool) (s : List String) :
    ∀ (L : List (Nat × Nat)) (acc : Table (String × String) × Nat),
      (L.foldl (pairStep op s) acc).2 = acc.2 + L.countP (diffPred s) := by
  intro L
  induction L with
  | nil => intro acc; simp
  | cons ij L ih =>
    intro acc
    rw [List.foldl_cons, ih, List.countP_cons]
    by_cases h : s.getD ij.1 "" = s.getD ij.2 ""
    · have hp : diffPred s ij = false := by
        unfold diffPred
        rw [decide_eq_false (fun hne => hne h)]
      have hs : pairStep op s acc ij = acc := by
        unfold pairStep
        rw [if_pos h]
      rw [hp, hs]
      simp
    · have hp : diffPred s ij = true := by
        unfold diffPred
        rw [decide_eq_true h]
      have hs : pairStep op s acc ij
          = (incr acc.1 (pairKey op (s.getD ij.1 "") (s.getD ij.2 "")), acc.2 + 1) := by
        unfold pairStep
        rw [if_neg h]
      rw [hs]
      show acc.2 + 1 + List.countP (diffPred s) L = _
      rw [hp]
      simp
      omega

theorem foldl_pairStep_snd_sum (op : Bool) (s : List String) :
    ∀ (L : List (Nat × Nat)) (acc : Table (String × String) × Nat),
      acc.2 = sumValues acc.1 →
      (L.foldl (pairStep op s) acc).2 = sumValues (L.foldl (pairStep op s) acc).1 := by
  intro L
  induction L with
  | nil => intro acc h; exact h
  | cons ij L ih =>
    intro acc h
    rw [List.foldl_cons]
    apply ih
    by_cases hcase : s.getD ij.1 "" = s.getD ij.2 ""
    · have hs : pairStep op s acc ij = acc := by
        unfold pairStep
        rw [if_pos hcase]
      rw [hs]
      exact h
    · have hs : pairStep op s acc ij
          = (incr acc.1 (pairKey op (s.getD ij.1 "") (s.getD ij.2 "")), acc.2 + 1) := by
        unfold pairStep
        rw [if_neg hcase]
      rw [hs]
      show acc.2 + 1 = sumValues (incr acc.1 _)
      rw [sumValues_incr, h]

theorem foldl_pairStep_keys (op : Bool) (s : List String) :
    ∀ (L : List (Nat × Nat)) (acc : Table (String × String) × Nat)
      (k : String × String), k ∈ keys (L.foldl (pairStep op s) acc).1 →
      k ∈ keys acc.1 ∨ ∃ ij ∈ L, s.getD ij.1 "" ≠ s.getD ij.2 "" ∧
        k = pairKey op (s.getD ij.1 "") (s.getD ij.2 "") := by
  intro L
  induction L with
  | nil => intro acc k h; exact Or.inl h
  | cons ij L ih =>
    intro acc k h
    rw [List.foldl_cons] at h
    rcases ih _ k h with hmem | ⟨ij', hij', hne, hk⟩
    · by_cases hcase : s.getD ij.1 "" = s.getD ij.2 ""
      · have hs : pairStep op s acc ij = acc := by
          unfold pairStep
          rw [if_pos hcase]
        rw [hs] at hmem
        exact Or.inl hmem
      · have hs : pairStep op s acc ij
            = (incr acc.1 (pairKey op (s.getD ij.1 "") (s.getD ij.2 "")), acc.2 + 1) := by
          unfold pairStep
          rw [if_neg hcase]
        rw [hs] at hmem
        rcases (mem_keys_incr _ _ _).mp hmem with h1 | h1
        · exact Or.inl h1
        · exact Or.inr ⟨ij, List.mem_cons_self _ _, hcase, h1⟩
    · exact Or.inr ⟨ij', List.mem_cons_of_mem _ hij', hne, hk⟩

theorem foldl_pairStep_nodup (op : Bool) (s : List String) :
    ∀ (L : List (Nat × Nat)) (acc : Table (String × String) × Nat),
      (keys acc.1).Nodup → (keys (L.foldl (pairStep op s) acc).1).Nodup := by
  intro L
  induction L with
  | nil => intro acc h; exact h
  | cons ij L ih =>
    intro acc h
    rw [List.foldl_cons]
    apply ih
    by_cases hcase : s.getD ij.1 "" = s.getD ij.2 ""
    · have hs : pairStep op s acc ij = acc := by
        unfold pairStep
        rw [if_pos hcase]
      rw [hs]
      exact h
    · have hs : pairStep op s acc ij
          = (incr acc.1 (pairKey op (s.getD ij.1 "") (s.getD ij.2 "")), acc.2 + 1) := by
        unfold pairStep
        rw [if_neg hcase]
      rw [hs]
      exact nodup_keys_incr _ _ h

theorem mem_pairIndices {la len i j : Nat} :
    (i, j) ∈ pairIndices la len ↔ i < j ∧ j < len ∧ j < i + la := by
  simp only [pairIndices, List.mem_flatMap, List.mem_map, List.mem_range]
  constructor
  · rintro ⟨i0, hi0, j0, hj0, heq⟩
    cases heq
    rw [mem_rangeFromTo] at hj0
    omega
  · rintro ⟨h1, h2, h3⟩
    exact ⟨i, by omega, j, mem_rangeFromTo.mpr ⟨by omega, by omega⟩, rfl⟩

theorem mem_crossIndices {la len1 len i j : Nat} :
    (i, j) ∈ crossIndices la len1 len ↔
      i < len1 ∧ len1 ≤ j ∧ j < len ∧ j < i + la := by
  simp only [crossIndices, List.mem_flatMap, List.mem_map, List.mem_range]
  constructor
  · rintro ⟨i0, hi0, j0, hj0, heq⟩
    cases heq
    rw [mem_rangeFromTo] at hj0
    omega
  · rintro ⟨h1, h2, h3, h4⟩
    exact ⟨i, by omega, j, mem_rangeFromTo.mpr ⟨by omega, by omega⟩, rfl⟩

theorem lookup_countPairs (op : Bool) (la : Nat) (s : List String) (k : String × String) :
    lookup (countPairs op la s).1 k
      = (pairIndices la s.length).countP (pairPred op s k) := by
  rw [countPairs_eq_foldl, foldl_pairStep_fst_lookup]
  simp [lookup]

theorem countPairs_snd (op : Bool) (la : Nat) (s : List String) :
    (countPairs op la s).2 = (pairIndices la s.length).countP (diffPred s) := by
  rw [countPairs_eq_foldl, foldl_pairStep_snd]
  simp

theorem countPairs_snd_eq_sumValues (op : Bool) (la : Nat) (s : List String) :
    (countPairs op la s).2 = sumValues (countPairs op la s).1 := by
  rw [countPairs_eq_foldl]
  exact foldl_pairStep_snd_sum op s _ ([], 0) rfl

theorem keys_countPairs (op : Bool) (la : Nat) (s : List String) (k : String × String)
    (h : k ∈ keys (countPairs op la s).1) :
    ∃ i j, i < j ∧ j < s.length ∧ j < i + la ∧ s.getD i "" ≠ s.getD j "" ∧
      k = pairKey op (s.getD i "") (s.getD j "") := by
  rw [countPairs_eq_foldl] at h
  rcases foldl_pairStep_keys op s _ ([], 0) k h with h0 | ⟨ij, hij, hne, hk⟩
  · simp [keys] at h0
  · obtain ⟨i, j⟩ := ij
    rw [mem_pairIndices] at hij
    exact ⟨i, j, hij.1, hij.2.1, hij.2.2, hne, hk⟩

theorem nodup_keys_countPairs (op : Bool) (la : Nat) (s : List String) :
    (keys (countPairs op la s).1).Nodup := by
  rw [countPairs_eq_foldl]
  exact foldl_pairStep_nodup op s _ ([], 0) (by simp [keys])

theorem lookup_crossPairs (op : Bool) (la : Nat) (s1 s2 : List String)
    (k : String × String) :
    lookup (crossPairs op la s1 s2).1 k
      = (crossIndices la s1.length (s1.length + s2.length)).countP
          (pairPred op (s1 ++ s2) k) := by
  unfold crossPairs
  rw [foldl_pairStep_fst_lookup]
  simp [lookup]

theorem crossPairs_snd (op : Bool) (la : Nat) (s1 s2 : List String) :
    (crossPairs op la s1 s2).2
      = (crossIndices la s1.length (s1.length + s2.length)).countP
          (diffPred (s1 ++ s2)) := by
  unfold crossPairs
  rw [foldl_pairStep_snd]
  simp

theorem pairKey_fst (op : Bool) (a b : String) :
    (pairKey op a b).1 = a ∨ (pairKey op a b).1 = b := by
  unfold pairKey
  split_ifs <;> simp

theorem pairKey_snd (op : Bool) (a b : String) :
    (pairKey op a b).2 = a ∨ (pairKey op a b).2 = b := by
  unfold pairKey
  split_ifs <;> simp

theorem pairKey_ne (op : Bool) (a b : String) (h : a ≠ b) :
    (pairKey op a b).1 ≠ (pairKey op a b).2 := by
  unfold pairKey
  split_ifs <;> simp [h, Ne.symm h]

/-! ## Trigram and unigram lemmas -/

theorem foldl_trigramStep_keys (s : List String) :
    ∀ (L : List Nat) (acc : Table (String × String × String))
      (k : String × String × String), k ∈ keys (L.foldl (trigramStep s) acc) →
      k ∈ keys acc ∨ ∃ i ∈ L,
        s.getD i "" ≠ s.getD (i + 1) "" ∧ s.getD (i + 1) "" ≠ s.getD (i + 2) "" ∧
        s.getD i "" ≠ s.getD (i + 2) "" ∧
        k = (s.getD i "", s.getD (i + 1) "", s.getD (i + 2) "") := by
  intro L
  induction L with
  | nil => intro acc k h; exact Or.inl h
  | cons i L ih =>
    intro acc k h
    rw [List.foldl_cons] at h
    rcases ih _ k h with hmem | ⟨i', hi', h1, h2, h3, hk⟩
    · by_cases hcase : s.getD i "" ≠ s.getD (i + 1) "" ∧
          s.getD (i + 1) "" ≠ s.getD (i + 2) "" ∧ s.getD i "" ≠ s.getD (i + 2) ""
      · have hs : trigramStep s acc i
            = incr acc (s.getD i "", s.getD (i + 1) "", s.getD (i + 2) "") := by
          unfold trigramStep
          rw [if_pos hcase]
        rw [hs] at hmem
        rcases (mem_keys_incr _ _ _).mp hmem with hmm | hmm
        · exact Or.inl hmm
        · exact Or.inr ⟨i, List.mem_cons_self _ _, hcase.1, hcase.2.1, hcase.2.2, hmm⟩
      · have hs : trigramStep s acc i = acc := by
          unfold trigramStep
          rw [if_neg hcase]
        rw [hs] at hmem
        exact Or.inl hmem
    · exact Or.inr ⟨i', List.mem_cons_of_mem _ hi', h1, h2, h3, hk⟩

theorem keys_countTrigrams (s : List String) (k : String × String × String)
    (h : k ∈ keys (countTrigrams s)) :
    ∃ i, i + 2 < s.length ∧
      s.getD i "" ≠ s.getD (i + 1) "" ∧ s.getD (i + 1) "" ≠ s.getD (i + 2) "" ∧
      s.getD i "" ≠ s.getD (i + 2) "" ∧
      k = (s.getD i "", s.getD (i + 1) "", s.getD (i + 2) "") := by
  unfold countTrigrams at h
  rcases foldl_trigramStep_keys s _ [] k h with h0 | ⟨i, hi, h1, h2, h3, hk⟩
  · simp [keys] at h0
  · rw [List.mem_range] at hi
    exact ⟨i, by omega, h1, h2, h3, hk⟩

theorem lookup_foldl_incr (s : List String) :
    ∀ (t : Table String) (a : String),
      lookup (s.foldl incr t) a = lookup t a + s.count a := by
  induction s with
  | nil => intro t a; simp
  | cons b s ih =>
    intro t a
    rw [List.foldl_cons, ih, lookup_incr]
    by_cases hba : b = a
    · simp [List.count_cons, hba]
      omega
    · simp [List.count_cons, hba]

theorem lookup_unigramTable (s : List String) (a : String) :
    lookup (unigramTable s) a = s.count a := by
  unfold unigramTable
  rw [lookup_foldl_incr]
  simp [lookup]

theorem getD_mem_of_lt {α : Type} (l : List α) (d : α) (i : Nat) (h : i < l.length) :
    l.getD i d ∈ l := by
  rw [List.getD_eq_getElem l d h]
  exact List.getElem_mem h

/-! ## Decomposing the concatenated-stream count (segment counts plus
cross-boundary pairs) -/

theorem countP_pairIndices_split (la len1 len2 : Nat) (p p1 p2 : Nat × Nat → Bool)
    (h1 : ∀ i j, i < len1 → j < len1 → p (i, j) = p1 (i, j))
    (h2 : ∀ i j, p (len1 + i, len1 + j) = p2 (i, j)) :
    (pairIndices la (len1 + len2)).countP p
      = (pairIndices la len1).countP p1
        + (crossIndices la len1 (len1 + len2)).countP p
        + (pairIndices la len2).countP p2 := by
  unfold pairIndices crossIndices
  rw [List.countP_flatMap, List.countP_flatMap, List.countP_flatMap, List.countP_flatMap,
    List.range_add, List.map_append, List.sum_append, List.map_map]
  simp only [Function.comp_def]
  have hA : ∀ i ∈ List.range len1,
      ((rangeFromTo (i + 1) (min (i + la) (len1 + len2))).map
          (fun j => (i, j))).countP p
        = ((rangeFromTo (i + 1) (min (i + la) len1)).map (fun j => (i, j))).countP p1
          + ((rangeFromTo len1 (min (i + la) (len1 + len2))).map
              (fun j => (i, j))).countP p := by
    intro i hi
    rw [List.mem_range] at hi
    by_cases hcase : len1 ≤ i + la
    · have hmid : min (i + la) len1 = len1 := by omega
      have heq : rangeFromTo (i + 1) (min (i + la) (len1 + len2))
          = rangeFromTo (i + 1) len1 ++ rangeFromTo len1 (min (i + la) (len1 + len2)) :=
        rangeFromTo_append (by omega) (by omega)
      rw [hmid, heq, List.map_append, List.countP_append]
      congr 1
      rw [List.countP_map, List.countP_map]
      refine List.countP_congr fun j hj => ?_
      rw [mem_rangeFromTo] at hj
      simp only [Function.comp_apply]
      rw [h1 i j (by omega) (by omega)]
    · have hmin : min (i + la) (len1 + len2) = min (i + la) len1 := by omega
      rw [hmin]
      have hempty : rangeFromTo len1 (min (i + la) len1) = [] :=
        rangeFromTo_eq_nil (by omega)
      rw [hempty]
      simp only [List.map_nil, List.countP_nil, Nat.add_zero]
      rw [List.countP_map, List.countP_map]
      refine List.countP_congr fun j hj => ?_
      rw [mem_rangeFromTo] at hj
      simp only [Function.comp_apply]
      rw [h1 i j (by omega) (by omega)]
  have hB : ∀ i' ∈ List.range len2,
      ((rangeFromTo (len1 + i' + 1) (min (len1 + i' + la) (len1 + len2))).map
          (fun j => (len1 + i', j))).countP p
        = ((rangeFromTo (i' + 1) (min (i' + la) len2)).map
            (fun j => (i', j))).countP p2 := by
    intro i' hi'
    rw [List.mem_range] at hi'
    have hmin : min (len1 + i' + la) (len1 + len2) = len1 + min (i' + la) len2 := by
      omega
    have hone : len1 + i' + 1 = len1 + (i' + 1) := by omega
    rw [hmin, hone, rangeFromTo_shift, List.map_map, List.countP_map, List.countP_map]
    refine List.countP_congr fun j hj => ?_
    simp only [Function.comp_apply]
    rw [h2 i' j]
  rw [List.map_congr_left hA, List.sum_map_add, List.map_congr_left hB]

theorem pairPred_append_left (op : Bool) (s1 s2 : List String) (k : String × String)
    (i j : Nat) (hi : i < s1.length) (hj : j < s1.length) :
    pairPred op (s1 ++ s2) k (i, j) = pairPred op s1 k (i, j) := by
  unfold pairPred
  rw [getD_append_left s1 s2 "" i hi, getD_append_left s1 s2 "" j hj]

theorem pairPred_append_add (op : Bool) (s1 s2 : List String) (k : String × String)
    (i j : Nat) :
    pairPred op (s1 ++ s2) k (s1.length + i, s1.length + j) = pairPred op s2 k (i, j) := by
  unfold pairPred
  rw [getD_append_add s1 s2 "" i, getD_append_add s1 s2 "" j]

theorem diffPred_append_left (s1 s2 : List String) (i j : Nat)
    (hi : i < s1.length) (hj : j < s1.length) :
    diffPred (s1 ++ s2) (i, j) = diffPred s1 (i, j) := by
  unfold diffPred
  rw [getD_append_left s1 s2 "" i hi, getD_append_left s1 s2 "" j hj]

theorem diffPred_append_add (s1 s2 : List String) (i j : Nat) :
    diffPred (s1 ++ s2) (s1.length + i, s1.length + j) = diffPred s2 (i, j) := by
  unfold diffPred
  rw [getD_append_add s1 s2 "" i, getD_append_add s1 s2 "" j]

theorem lookup_countPairs_append (op : Bool) (la : Nat)
    (s1 s2 : List String) (k : String × String) :
    lookup (countPairs op la (s1 ++ s2)).1 k
      = lookup (countPairs op la s1).1 k + lookup (countPairs op la s2).1 k
        + lookup (crossPairs op la s1 s2).1 k := by
  rw [lookup_countPairs, lookup_countPairs, lookup_countPairs, lookup_crossPairs,
    List.length_append]
  have := countP_pairIndices_split la s1.length s2.length
    (pairPred op (s1 ++ s2) k) (pairPred op s1 k) (pairPred op s2 k)
    (fun i j hi hj => pairPred_append_left op s1 s2 k i j hi hj)
    (fun i j => pairPred_append_add op s1 s2 k i j)
  omega

theorem countPairs_append_snd (op : Bool) (la : Nat)
    (s1 s2 : List String) :
    (countPairs op la (s1 ++ s2)).2
      = (countPairs op la s1).2 + (countPairs op la s2).2
        + (crossPairs op la s1 s2).2 := by
  rw [countPairs_snd, countPairs_snd, countPairs_snd, crossPairs_snd, List.length_append]
  have := countP_pairIndices_split la s1.length s2.length
    (diffPred (s1 ++ s2)) (diffPred s1) (diffPred s2)
    (fun i j hi hj => diffPred_append_left s1 s2 i j hi hj)
    (fun i j => diffPred_append_add s1 s2 i j)
  omega

/-! ## Insertion sort: permutation and sortedness (with transitivity only
required on the elements being sorted, since the cross-multiplication
comparison is transitive only for positive denominators) -/

theorem mem_ordInsert {α : Type} (le : α → α → Bool) (a x : α) :
    ∀ l : List α, x ∈ ordInsert le a l ↔ x = a ∨ x ∈ l := by
  intro l
  induction l with
  | nil => simp [ordInsert]
  | cons b l ih =>
    unfold ordInsert
    by_cases h : le a b = true
    · rw [if_pos h]
      simp only [List.mem_cons]
    · rw [if_neg h]
      simp only [List.mem_cons, ih]
      tauto

theorem perm_ordInsert {α : Type} (le : α → α → Bool) (a : α) :
    ∀ l : List α, (ordInsert le a l).Perm (a :: l) := by
  intro l
  induction l with
  | nil => exact List.Perm.refl _
  | cons b l ih =>
    unfold ordInsert
    by_cases h : le a b = true
    · rw [if_pos h]
    · rw [if_neg h]
      exact (ih.cons b).trans (List.Perm.swap a b l)

theorem perm_insSort {α : Type} (le : α → α → Bool) :
    ∀ l : List α, (insSort le l).Perm l := by
  intro l
  induction l with
  | nil => exact List.Perm.refl _
  | cons a l ih =>
    unfold insSort
    exact (perm_ordInsert le a (insSort le l)).trans (ih.cons a)

theorem sorted_ordInsert {α : Type} (le : α → α → Bool) (S : List α)
    (htot : ∀ x ∈ S, ∀ y ∈ S, le x y = true ∨ le y x = true)
    (htrans : ∀ x ∈ S, ∀ y ∈ S, ∀ z ∈ S,
      le x y = true → le y z = true → le x z = true)
    (a : α) (ha : a ∈ S) :
    ∀ l : List α, (∀ x ∈ l, x ∈ S) → l.Sorted (fun x y => le x y = true) →
      (ordInsert le a l).Sorted (fun x y => le x y = true) := by
  intro l
  induction l with
  | nil =>
    intro _ _
    simp [ordInsert]
  | cons b l ih =>
    intro hsub hs
    rw [List.sorted_cons] at hs
    obtain ⟨hb, hst⟩ := hs
    unfold ordInsert
    by_cases h : le a b = true
    · rw [if_pos h, List.sorted_cons]
      refine ⟨fun x hx => ?_, List.sorted_cons.mpr ⟨hb, hst⟩⟩
      rcases List.mem_cons.mp hx with hxb | hx'
      · rw [hxb]
        exact h
      · exact htrans a ha b (hsub b (List.mem_cons_self _ _)) x
          (hsub x (List.mem_cons_of_mem _ hx')) h (hb x hx')
    · rw [if_neg h, List.sorted_cons]
      refine ⟨fun x hx => ?_, ih (fun x hx => hsub x (List.mem_cons_of_mem _ hx)) hst⟩
      rcases (mem_ordInsert le a x l).mp hx with hxa | hx'
      · rw [hxa]
        rcases htot a ha b (hsub b (List.mem_cons_self _ _)) with h1 | h1
        · exact absurd h1 h
        · exact h1
      · exact hb x hx'

theorem sorted_insSort {α : Type} (le : α → α → Bool) (S : List α)
    (htot : ∀ x ∈ S, ∀ y ∈ S, le x y = true ∨ le y x = true)
    (htrans : ∀ x ∈ S, ∀ y ∈ S, ∀ z ∈ S,
      le x y = true → le y z = true → le x z = true) :
    ∀ l : List α, (∀ x ∈ l, x ∈ S) →
      (insSort le l).Sorted (fun x y => le x y = true) := by
  intro l
  induction l with
  | nil =>
    intro _
    simp [insSort]
  | cons a l ih =>
    intro hsub
    unfold insSort
    refine sorted_ordInsert le S htot htrans a (hsub a (List.mem_cons_self _ _)) _
      (fun x hx => ?_) (ih fun x hx => hsub x (List.mem_cons_of_mem _ hx))
    exact hsub x (List.mem_cons_of_mem _ ((perm_insSort le l).mem_iff.mp hx))

/-! ## PMI-entry lemmas -/

theorem mem_pmiEntries (tbl : Table (String × String)) (uni : Table String)
    (tp tu minOcc : Nat) (r : PMIRec) :
    r ∈ pmiEntries tbl uni tp tu minOcc ↔
      ∃ pc ∈ tbl, minOcc ≤ pc.2 ∧
        r = ⟨pc.1, pc.2 * tu * tu, tp * lookup uni pc.1.1 * lookup uni pc.1.2, pc.2⟩ := by
  unfold pmiEntries
  rw [List.mem_filterMap]
  constructor
  · rintro ⟨pc, hmem, hf⟩
    by_cases h : pc.2 < minOcc
    · rw [if_pos h] at hf
      exact absurd hf (by simp)
    · rw [if_neg h] at hf
      exact ⟨pc, hmem, by omega, (Option.some_inj.mp hf).symm⟩
  · rintro ⟨pc, hmem, hle, rfl⟩
    refine ⟨pc, hmem, ?_⟩
    rw [if_neg (by omega)]

theorem pmiEntries_pair_sublist (tbl : Table (String × String)) (uni : Table String)
    (tp tu minOcc : Nat) :
    ((pmiEntries tbl uni tp tu minOcc).map PMIRec.pair).Sublist (tbl.map Prod.fst) := by
  induction tbl with
  | nil => simp [pmiEntries]
  | cons pc tbl ih =>
    unfold pmiEntries at ih ⊢
    rw [List.filterMap_cons]
    by_cases h : pc.2 < minOcc
    · simp only [if_pos h, List.map_cons]
      exact ih.cons pc.1
    · simp only [if_neg h, List.map_cons]
      exact ih.cons₂ pc.1

theorem mem_pmiScores (tbl : Table (String × String)) (uni : Table String)
    (tp tu minOcc : Nat) (r : PMIRec) :
    r ∈ pmiScores tbl uni tp tu minOcc ↔ r ∈ pmiEntries tbl uni tp tu minOcc := by
  unfold pmiScores
  exact (perm_insSort pmiGeB _).mem_iff

theorem nodup_pmiScores_pairs (tbl : Table (String × String)) (uni : Table String)
    (tp tu minOcc : Nat) (hnd : (tbl.map Prod.fst).Nodup) :
    ((pmiScores tbl uni tp tu minOcc).map PMIRec.pair).Nodup := by
  have h1 : ((pmiEntries tbl uni tp tu minOcc).map PMIRec.pair).Nodup :=
    (pmiEntries_pair_sublist tbl uni tp tu minOcc).nodup hnd
  have h2 := (perm_insSort pmiGeB (pmiEntries tbl uni tp tu minOcc)).map PMIRec.pair
  unfold pmiScores
  exact (h2.nodup_iff).mpr h1

/-! ## Positivity of scored ratios on stream-derived tables -/

theorem mem_keys_of_lookup_pos {α : Type} [DecidableEq α] (t : Table α) (k : α)
    (h : 0 < lookup t k) : k ∈ keys t := by
  induction t with
  | nil => simp [lookup] at h
  | cons an t ih =>
    obtain ⟨a, n⟩ := an
    rw [keys_cons]
    by_cases hak : a = k
    · exact List.mem_cons.mpr (Or.inl hak.symm)
    · simp only [lookup, if_neg hak] at h
      exact List.mem_cons_of_mem _ (ih h)

theorem countPairs_key_mem (op : Bool) (la : Nat) (s : List String)
    (k : String × String) (h : k ∈ keys (countPairs op la s).1) :
    k.1 ∈ s ∧ k.2 ∈ s := by
  obtain ⟨i, j, hij, hjlen, hwin, hne, hkk⟩ := keys_countPairs op la s k h
  constructor
  · rw [hkk]
    rcases pairKey_fst op (s.getD i "") (s.getD j "") with h1 | h1 <;> rw [h1]
    · exact getD_mem_of_lt s "" i (by omega)
    · exact getD_mem_of_lt s "" j hjlen
  · rw [hkk]
    rcases pairKey_snd op (s.getD i "") (s.getD j "") with h1 | h1 <;> rw [h1]
    · exact getD_mem_of_lt s "" i (by omega)
    · exact getD_mem_of_lt s "" j hjlen

theorem pmiScores_stream_pos (op : Bool) (la : Nat) (s : List String) (minOcc : Nat)
    (hmo : 1 ≤ minOcc) (r : PMIRec)
    (hr : r ∈ pmiScores (countPairs op la s).1 (unigramTable s)
        (countPairs op la s).2 s.length minOcc) :
    1 ≤ r.count ∧ 0 < r.num ∧ 0 < r.den := by
  rw [mem_pmiScores, mem_pmiEntries] at hr
  obtain ⟨pc, hmem, hle, rfl⟩ := hr
  have hmem' : (pc.1, pc.2) ∈ (countPairs op la s).1 := by
    rw [Prod.mk.eta]
    exact hmem
  have hkeys : pc.1 ∈ keys (countPairs op la s).1 := mem_keys_of_mem hmem'
  obtain ⟨hm1, hm2⟩ := countPairs_key_mem op la s pc.1 hkeys
  have hc1 : 1 ≤ lookup (unigramTable s) pc.1.1 := by
    rw [lookup_unigramTable]
    exact List.count_pos_iff.mpr hm1
  have hc2 : 1 ≤ lookup (unigramTable s) pc.1.2 := by
    rw [lookup_unigramTable]
    exact List.count_pos_iff.mpr hm2
  have htu : 1 ≤ s.length := List.length_pos_of_mem hm1
  have htp : 1 ≤ (countPairs op la s).2 := by
    rw [countPairs_snd_eq_sumValues]
    have hl : lookup (countPairs op la s).1 pc.1 = pc.2 :=
      lookup_of_mem_nodup _ _ _ (nodup_keys_countPairs op la s) hmem'
    have hles := lookup_le_sumValues (countPairs op la s).1 pc.1
    omega
  refine ⟨?_, ?_, ?_⟩
  · show 1 ≤ pc.2
    omega
  · show 0 < pc.2 * s.length * s.length
    have hc : 0 < pc.2 := by omega
    exact Nat.mul_pos (Nat.mul_pos hc htu) htu
  · show 0 < (countPairs op la s).2
        * lookup (unigramTable s) pc.1.1 * lookup (unigramTable s) pc.1.2
    exact Nat.mul_pos (Nat.mul_pos htp hc1) hc2

/-! ## Real-number glue: the exact ratio equals the spec formula, and the
cross-multiplication order agrees with the log2 order -/

theorem ratio_real_eq (c tp c1 c2 tu : Nat) (htp : 1 ≤ tp) (htu : 1 ≤ tu)
    (hc1 : 1 ≤ c1) (hc2 : 1 ≤ c2) :
    ((c * tu * tu : Nat) : ℝ) / ((tp * c1 * c2 : Nat) : ℝ)
      = ((c : ℝ) / (tp : ℝ)) / (((c1 : ℝ) / (tu : ℝ)) * ((c2 : ℝ) / (tu : ℝ))) := by
  have h1 : (tp : ℝ) ≠ 0 := ne_of_gt (by exact_mod_cast htp)
  have h2 : (tu : ℝ) ≠ 0 := ne_of_gt (by exact_mod_cast htu)
  have h3 : (c1 : ℝ) ≠ 0 := ne_of_gt (by exact_mod_cast hc1)
  have h4 : (c2 : ℝ) ≠ 0 := ne_of_gt (by exact_mod_cast hc2)
  push_cast
  field_simp
  ring

theorem logb_le_of_crossmul (a b : PMIRec) (hbn : 0 < b.num) (hbd : 0 < b.den)
    (had : 0 < a.den) (h : b.num * a.den ≤ a.num * b.den) :
    Real.logb 2 ((b.num : ℝ) / (b.den : ℝ)) ≤ Real.logb 2 ((a.num : ℝ) / (a.den : ℝ)) := by
  apply Real.logb_le_logb_of_le (by norm_num : (1:ℝ) < 2)
  · exact div_pos (by exact_mod_cast hbn) (by exact_mod_cast hbd)
  · rw [div_le_div_iff₀ (by exact_mod_cast hbd) (by exact_mod_cast had)]
    exact_mod_cast h

/-! ## Claim theorems -/

/-- Claim C1 (amended): the pair table entries are exactly the counts over the
visited index list, and for every recorded pair key there are source
positions `i < j` forming it.  In the order-preserving counters
(`analyze_treebank.py` and the scripts sharing its loop,
`end_window = min(i + window_size, length)`) those positions satisfy
`j - i < window_size` as the claim states; in the order-independent counter
of `analyze_cicero_stanza.py` (`end_window = min(i + window_size + 1, length)`)
the bound is only `j - i ≤ window_size`. -/
theorem claim1_window_bounds :
    (∀ (op : Bool) (la : Nat) (s : List String) (k : String × String),
        lookup (countPairs op la s).1 k
          = (pairIndices la s.length).countP (pairPred op s k))
    ∧ (∀ (s : List String) (w : Nat) (k : String × String),
        0 < lookup (treebankPairs s w).1 k →
        ∃ i j, i < j ∧ j < s.length ∧ j - i < w ∧
          s.getD i "" ≠ s.getD j "" ∧ k = (s.getD i "", s.getD j ""))
    ∧ (∀ (s : List String) (w : Nat) (k : String × String),
        0 < lookup (stanzaPairs s w).1 k →
        ∃ i j, i < j ∧ j < s.length ∧ j - i ≤ w ∧
          s.getD i "" ≠ s.getD j "" ∧
          k = pairKey false (s.getD i "") (s.getD j "")) := by
  refine ⟨lookup_countPairs, ?_, ?_⟩
  · intro s w k h
    have hk : k ∈ keys (countPairs true w s).1 := mem_keys_of_lookup_pos _ _ h
    obtain ⟨i, j, hij, hjlen, hwin, hne, hkk⟩ := keys_countPairs true w s k hk
    refine ⟨i, j, hij, hjlen, by omega, hne, ?_⟩
    rw [hkk]
    rfl
  · intro s w k h
    have hk : k ∈ keys (countPairs false (w + 1) s).1 := mem_keys_of_lookup_pos _ _ h
    obtain ⟨i, j, hij, hjlen, hwin, hne, hkk⟩ := keys_countPairs false (w + 1) s k hk
    exact ⟨i, j, hij, hjlen, by omega, hne, hkk⟩

/-- Witness for C1: concrete instantiations of both positional bounds. -/
theorem claim1_window_bounds_witness :
    (0 < lookup (treebankPairs ["aa", "bb"] 5).1 ("aa", "bb")
      ∧ ∃ i j, i < j ∧ j < (["aa", "bb"] : List String).length ∧ j - i < 5 ∧
          (["aa", "bb"] : List String).getD i "" ≠ (["aa", "bb"] : List String).getD j "" ∧
          ("aa", "bb") = ((["aa", "bb"] : List String).getD i "",
            (["aa", "bb"] : List String).getD j ""))
    ∧ (0 < lookup (stanzaPairs ["aa", "bb"] 5).1 ("aa", "bb")
      ∧ ∃ i j, i < j ∧ j < (["aa", "bb"] : List String).length ∧ j - i ≤ 5 ∧
          (["aa", "bb"] : List String).getD i "" ≠ (["aa", "bb"] : List String).getD j "" ∧
          ("aa", "bb") = pairKey false ((["aa", "bb"] : List String).getD i "")
            ((["aa", "bb"] : List String).getD j "")) :=
  ⟨⟨by decide, claim1_window_bounds.2.1 ["aa", "bb"] 5 ("aa", "bb") (by decide)⟩,
   ⟨by decide, claim1_window_bounds.2.2 ["aa", "bb"] 5 ("aa", "bb") (by decide)⟩⟩

/-- Counterexample to C1 as stated: with window_size 5, the
`analyze_cicero_stanza.py` counter records the pair `("aa", "ff")` of the
stream `["aa", "bb", "cc", "dd", "ee", "ff"]`, and the only positions
carrying those two lemmas are `i = 0 < j = 5` with `j - i = 5`, which is not
`< window_size`; so its inner loop is not bounded by
`min(i + window_size, length)`. -/
theorem claim1_counterexample :
    0 < lookup (stanzaPairs ["aa", "bb", "cc", "dd", "ee", "ff"] 5).1 ("aa", "ff")
    ∧ (∀ i, i < 6 → ∀ j, j < 6 → i < j →
        (((["aa", "bb", "cc", "dd", "ee", "ff"] : List String).getD i "" = "aa" ∧
          (["aa", "bb", "cc", "dd", "ee", "ff"] : List String).getD j "" = "ff") ∨
         ((["aa", "bb", "cc", "dd", "ee", "ff"] : List String).getD i "" = "ff" ∧
          (["aa", "bb", "cc", "dd", "ee", "ff"] : List String).getD j "" = "aa")) →
        ¬ (j - i < 5)) :=
  ⟨by decide, by decide⟩

/-- Counterexample to C2 as stated: on stream
`["rex", "amat", "rex", "regina"]` with window_size 3, the order-independent
counter of `analyze_cicero_stanza.py` (whose lookahead is
`window_size + 1`) gives `total_pairs = 5`, not 4, and `(regina, rex)`
count 2, not 1. -/
theorem claim2_counterexample :
    (stanzaPairs ["rex", "amat", "rex", "regina"] 3).2 ≠ 4
    ∧ lookup (stanzaPairs ["rex", "amat", "rex", "regina"] 3).1 ("regina", "rex") ≠ 1 :=
  ⟨by decide, by decide⟩

/-- Claim C2 (amended): the order-independent counter of
`analyze_cicero_stanza.py` on `["rex", "amat", "rex", "regina"]` with
window_size 3 produces the table
`{(amat, rex): 2, (regina, rex): 2, (amat, regina): 1}` (in insertion order)
and `total_pairs = 5`. -/
theorem claim2_end_to_end :
    stanzaPairs ["rex", "amat", "rex", "regina"] 3
      = ([(("amat", "rex"), 2), (("regina", "rex"), 2), (("amat", "regina"), 1)], 5) := by
  decide

/-- Claim C4 (confirmed): no pair key in any counter's table has equal
components, and every recorded trigram key comes from three consecutive
stream positions and has pairwise-distinct components. -/
theorem claim4_no_self_pairs_and_trigrams :
    (∀ (op : Bool) (la : Nat) (s : List String) (k : String × String),
        k ∈ keys (countPairs op la s).1 → k.1 ≠ k.2)
    ∧ (∀ (s : List String) (k : String × String × String),
        k ∈ keys (countTrigrams s) →
        (k.1 ≠ k.2.1 ∧ k.2.1 ≠ k.2.2 ∧ k.1 ≠ k.2.2)
        ∧ ∃ i, i + 2 < s.length
            ∧ k = (s.getD i "", s.getD (i + 1) "", s.getD (i + 2) "")) := by
  constructor
  · intro op la s k h
    obtain ⟨i, j, _, _, _, hne, hkk⟩ := keys_countPairs op la s k h
    rw [hkk]
    exact pairKey_ne op _ _ hne
  · intro s k h
    obtain ⟨i, hlen, h1, h2, h3, hk⟩ := keys_countTrigrams s k h
    subst hk
    exact ⟨⟨h1, h2, h3⟩, i, hlen, rfl⟩

/-- Witness for C4 at concrete streams. -/
theorem claim4_witness :
    (("aa", "bb") ∈ keys (countPairs true 5 ["aa", "bb"]).1
      ∧ ("aa", "bb").1 ≠ ("aa", "bb").2)
    ∧ (("aa", "bb", "cc") ∈ keys (countTrigrams ["aa", "bb", "cc"])
      ∧ ((("aa", "bb", "cc") : String × String × String).1 ≠ ("aa", "bb", "cc").2.1
          ∧ (("aa", "bb", "cc") : String × String × String).2.1 ≠ ("aa", "bb", "cc").2.2
          ∧ (("aa", "bb", "cc") : String × String × String).1 ≠ ("aa", "bb", "cc").2.2)
        ∧ ∃ i, i + 2 < (["aa", "bb", "cc"] : List String).length
            ∧ ("aa", "bb", "cc") = ((["aa", "bb", "cc"] : List String).getD i "",
                (["aa", "bb", "cc"] : List String).getD (i + 1) "",
                (["aa", "bb", "cc"] : List String).getD (i + 2) "")) :=
  ⟨⟨by decide, claim4_no_self_pairs_and_trigrams.1 true 5 ["aa", "bb"] ("aa", "bb")
      (by decide)⟩,
   ⟨by decide, claim4_no_self_pairs_and_trigrams.2 ["aa", "bb", "cc"] ("aa", "bb", "cc")
      (by decide)⟩⟩

/-- Counterexample to C5 as stated: splitting `["aa", "bb"]` into `["aa"]`
and `["bb"]` and merging the per-segment tables loses the cross-boundary
pair `("aa", "bb")`: the concatenated stream records it once
(`total_pairs = 1`), the additive merge records nothing. -/
theorem claim5_counterexample :
    lookup (treebankPairs (["aa"] ++ ["bb"]) 5).1 ("aa", "bb")
      ≠ lookup (mergeTable (treebankPairs ["aa"] 5).1 (treebankPairs ["bb"] 5).1)
          ("aa", "bb")
    ∧ (treebankPairs (["aa"] ++ ["bb"]) 5).2
      ≠ (treebankPairs ["aa"] 5).2 + (treebankPairs ["bb"] 5).2 :=
  ⟨by decide, by decide⟩

/-- Claim C5 (amended): counting the concatenated stream equals the additive
merge of the two per-segment tables plus exactly the cross-boundary pairs
(first position in the first segment, second in the second, within the
window); totals decompose the same way.  Merging alone agrees with the
concatenated count precisely when no cross-boundary pair is recorded. -/
theorem claim5_merge_decomposition (op : Bool) (la : Nat) (s1 s2 : List String) :
    (∀ k, lookup (countPairs op la (s1 ++ s2)).1 k
        = lookup (mergeTable (countPairs op la s1).1 (countPairs op la s2).1) k
          + lookup (crossPairs op la s1 s2).1 k)
    ∧ (countPairs op la (s1 ++ s2)).2
        = (countPairs op la s1).2 + (countPairs op la s2).2
          + (crossPairs op la s1 s2).2 := by
  constructor
  · intro k
    rw [lookup_mergeTable _ _ _ (nodup_keys_countPairs op la s2)]
    have h := lookup_countPairs_append op la s1 s2 k
    omega
  · exact countPairs_append_snd op la s1 s2

/-- Claim C8 (confirmed): on an empty admitted stream the counters return
empty tables with zero totals, and the PMI stage on the resulting (empty)
pair table returns no records even with `total_pairs = total_unigrams = 0`:
the scoring loop body is never entered, so no division is evaluated. -/
theorem claim8_empty_stream (op : Bool) (la minOcc tu : Nat) (uni : Table String) :
    countPairs op la ([] : List String) = ([], 0)
    ∧ countTrigrams ([] : List String) = []
    ∧ unigramTable ([] : List String) = []
    ∧ pmiScores (countPairs op la ([] : List String)).1 (unigramTable [])
        (countPairs op la ([] : List String)).2 0 minOcc = []
    ∧ pmiScores [] uni 0 tu minOcc = [] :=
  ⟨rfl, rfl, rfl, rfl, rfl⟩

/-- Claim C10 (confirmed): after the pair-counting pass, the running
`total_pairs` equals the sum of all counts stored in the pair table, for
every stream, window and key mode (this covers `analyze_treebank.py`,
`analyze_cicero_stanza.py` and `analyze_latin.py`). -/
theorem claim10_total_pairs_conservation (op : Bool) (la : Nat) (s : List String) :
    (countPairs op la s).2 = sumValues (countPairs op la s).1 :=
  countPairs_snd_eq_sumValues op la s

/-- Claim C3 (confirmed): the PMI scorer emits exactly one record per
table entry with `count ≥ min_occurrence` (none below the threshold), each
record's score is `log2((count/total_pairs) /
((c1/total_unigrams)·(c2/total_unigrams)))` (the defensive zero fallback is
not taken), and the output is sorted in descending order of PMI score. -/
theorem claim3_pmi_scorer (tbl : Table (String × String)) (uni : Table String)
    (tp tu minOcc : Nat)
    (hkeys : (tbl.map Prod.fst).Nodup)
    (hmo : 1 ≤ minOcc) (htp : 1 ≤ tp) (htu : 1 ≤ tu)
    (huni : ∀ pc ∈ tbl, 1 ≤ lookup uni pc.1.1 ∧ 1 ≤ lookup uni pc.1.2) :
    ((pmiScores tbl uni tp tu minOcc).map PMIRec.pair).Nodup
    ∧ (∀ pc ∈ tbl, minOcc ≤ pc.2 →
        (⟨pc.1, pc.2 * tu * tu, tp * lookup uni pc.1.1 * lookup uni pc.1.2, pc.2⟩ : PMIRec)
          ∈ pmiScores tbl uni tp tu minOcc)
    ∧ (∀ r ∈ pmiScores tbl uni tp tu minOcc,
        minOcc ≤ r.count ∧ (r.pair, r.count) ∈ tbl
        ∧ r.num = r.count * tu * tu
        ∧ r.den = tp * lookup uni r.pair.1 * lookup uni r.pair.2
        ∧ (0 : ℝ) < (r.num : ℝ) / (r.den : ℝ)
        ∧ (if (0 : ℝ) < (r.num : ℝ) / (r.den : ℝ)
            then Real.logb 2 ((r.num : ℝ) / (r.den : ℝ)) else 0)
          = Real.logb 2 (((r.count : ℝ) / (tp : ℝ))
              / (((lookup uni r.pair.1 : ℝ) / (tu : ℝ))
                  * ((lookup uni r.pair.2 : ℝ) / (tu : ℝ)))))
    ∧ (pmiScores tbl uni tp tu minOcc).Sorted
        (fun a b => Real.logb 2 ((b.num : ℝ) / (b.den : ℝ))
          ≤ Real.logb 2 ((a.num : ℝ) / (a.den : ℝ))) := by
  have hfacts : ∀ r ∈ pmiEntries tbl uni tp tu minOcc,
      minOcc ≤ r.count ∧ (r.pair, r.count) ∈ tbl
      ∧ r.num = r.count * tu * tu
      ∧ r.den = tp * lookup uni r.pair.1 * lookup uni r.pair.2
      ∧ 0 < r.num ∧ 0 < r.den := by
    intro r hr
    rw [mem_pmiEntries] at hr
    obtain ⟨pc, hmem, hle, rfl⟩ := hr
    obtain ⟨hu1, hu2⟩ := huni pc hmem
    refine ⟨hle, ?_, rfl, rfl, ?_, ?_⟩
    · show ((pc.1, pc.2) : (String × String) × Nat) ∈ tbl
      rw [Prod.mk.eta]
      exact hmem
    · show 0 < pc.2 * tu * tu
      have hc : 0 < pc.2 := by omega
      exact Nat.mul_pos (Nat.mul_pos hc (by omega)) (by omega)
    · show 0 < tp * lookup uni pc.1.1 * lookup uni pc.1.2
      exact Nat.mul_pos (Nat.mul_pos (by omega) (by omega)) (by omega)
  refine ⟨nodup_pmiScores_pairs tbl uni tp tu minOcc hkeys, ?_, ?_, ?_⟩
  · intro pc hmem hle
    rw [mem_pmiScores, mem_pmiEntries]
    exact ⟨pc, hmem, hle, rfl⟩
  · intro r hr
    have hr' := (mem_pmiScores tbl uni tp tu minOcc r).mp hr
    obtain ⟨hle, hmem, hnum, hden, hpnum, hpden⟩ := hfacts r hr'
    obtain ⟨hu1, hu2⟩ := huni (r.pair, r.count) hmem
    have hreal : (0 : ℝ) < (r.num : ℝ) / (r.den : ℝ) :=
      div_pos (by exact_mod_cast hpnum) (by exact_mod_cast hpden)
    refine ⟨hle, hmem, hnum, hden, hreal, ?_⟩
    rw [if_pos hreal, hnum, hden,
      ratio_real_eq r.count tp (lookup uni r.pair.1) (lookup uni r.pair.2) tu
        htp htu hu1 hu2]
  · have htot : ∀ x ∈ pmiEntries tbl uni tp tu minOcc,
        ∀ y ∈ pmiEntries tbl uni tp tu minOcc,
        pmiGeB x y = true ∨ pmiGeB y x = true := by
      intro x _ y _
      unfold pmiGeB
      rcases Nat.le_total (y.num * x.den) (x.num * y.den) with h | h
      · exact Or.inl (decide_eq_true h)
      · exact Or.inr (decide_eq_true h)
    have htrans : ∀ x ∈ pmiEntries tbl uni tp tu minOcc,
        ∀ y ∈ pmiEntries tbl uni tp tu minOcc,
        ∀ z ∈ pmiEntries tbl uni tp tu minOcc,
        pmiGeB x y = true → pmiGeB y z = true → pmiGeB x z = true := by
      intro x hx y hy z hz h1 h2
      obtain ⟨_, _, _, _, _, hyden⟩ := hfacts y hy
      unfold pmiGeB at h1 h2 ⊢
      rw [decide_eq_true_eq] at h1 h2
      apply decide_eq_true
      have step : z.num * x.den * y.den ≤ x.num * z.den * y.den := by
        calc z.num * x.den * y.den = z.num * y.den * x.den := by ring
          _ ≤ y.num * z.den * x.den := Nat.mul_le_mul_right _ h2
          _ = y.num * x.den * z.den := by ring
          _ ≤ x.num * y.den * z.den := Nat.mul_le_mul_right _ h1
          _ = x.num * z.den * y.den := by ring
      exact Nat.le_of_mul_le_mul_right step hyden
    have hsorted := sorted_insSort pmiGeB (pmiEntries tbl uni tp tu minOcc) htot htrans
      (pmiEntries tbl uni tp tu minOcc) (fun x hx => hx)
    refine List.Pairwise.imp_of_mem (fun {a b} ha hb hab => ?_) hsorted
    have ha' := (mem_pmiScores tbl uni tp tu minOcc a).mp ha
    have hb' := (mem_pmiScores tbl uni tp tu minOcc b).mp hb
    obtain ⟨_, _, _, _, hbn, hbd⟩ := hfacts b hb'
    obtain ⟨_, _, _, _, _, had⟩ := hfacts a ha'
    unfold pmiGeB at hab
    rw [decide_eq_true_eq] at hab
    exact logb_le_of_crossmul a b hbn hbd had hab

/-- Witness for C3: the scorer applied to a one-pair table. -/
theorem claim3_witness :
    (([((("aa", "bb") : String × String), 1)].map Prod.fst).Nodup
      ∧ (1 : Nat) ≤ 1 ∧ (1 : Nat) ≤ 1 ∧ (1 : Nat) ≤ 2
      ∧ (∀ pc ∈ [((("aa", "bb") : String × String), 1)],
          1 ≤ lookup [("aa", 1), ("bb", 1)] pc.1.1
          ∧ 1 ≤ lookup [("aa", 1), ("bb", 1)] pc.1.2))
    ∧ (((pmiScores [(("aa", "bb"), 1)] [("aa", 1), ("bb", 1)] 1 2 1).map PMIRec.pair).Nodup
      ∧ (∀ pc ∈ [((("aa", "bb") : String × String), 1)], 1 ≤ pc.2 →
          (⟨pc.1, pc.2 * 2 * 2, 1 * lookup [("aa", 1), ("bb", 1)] pc.1.1
              * lookup [("aa", 1), ("bb", 1)] pc.1.2, pc.2⟩ : PMIRec)
            ∈ pmiScores [(("aa", "bb"), 1)] [("aa", 1), ("bb", 1)] 1 2 1)
      ∧ (∀ r ∈ pmiScores [(("aa", "bb"), 1)] [("aa", 1), ("bb", 1)] 1 2 1,
          1 ≤ r.count ∧ (r.pair, r.count) ∈ [((("aa", "bb") : String × String), 1)]
          ∧ r.num = r.count * 2 * 2
          ∧ r.den = 1 * lookup [("aa", 1), ("bb", 1)] r.pair.1
              * lookup [("aa", 1), ("bb", 1)] r.pair.2
          ∧ (0 : ℝ) < (r.num : ℝ) / (r.den : ℝ)
          ∧ (if (0 : ℝ) < (r.num : ℝ) / (r.den : ℝ)
              then Real.logb 2 ((r.num : ℝ) / (r.den : ℝ)) else 0)
            = Real.logb 2 (((r.count : ℝ) / (((1 : Nat)) : ℝ))
                / (((lookup [("aa", 1), ("bb", 1)] r.pair.1 : ℝ) / (((2 : Nat)) : ℝ))
                    * ((lookup [("aa", 1), ("bb", 1)] r.pair.2 : ℝ) / (((2 : Nat)) : ℝ)))))
      ∧ (pmiScores [(("aa", "bb"), 1)] [("aa", 1), ("bb", 1)] 1 2 1).Sorted
          (fun a b => Real.logb 2 ((b.num : ℝ) / (b.den : ℝ))
            ≤ Real.logb 2 ((a.num : ℝ) / (a.den : ℝ)))) := by
  refine ⟨⟨by decide, le_refl 1, le_refl 1, by decide, by decide⟩, ?_⟩
  exact claim3_pmi_scorer [(("aa", "bb"), 1)] [("aa", 1), ("bb", 1)] 1 2 1
    (by decide) (le_refl 1) (le_refl 1) (by decide) (by decide)

/-- Counterexample to C6 as stated: the admission filter of
`analyze_entropy.py` (lines 91–98) checks only the stop-POS set and the
placeholder, so it admits the length-1 lemma `"a"`. -/
theorem claim6_counterexample :
    entropyAdmit "NOUN" "a" = some "a" ∧ ¬ (1 < ("a" : String).length) :=
  ⟨by decide, by decide⟩

/-- Claim C6 (amended): in the collocation configurations
(`analyze_treebank.py` lines 96–107, also used by `analyze_cicero.py`, and
`analyze_latin.py` lines 101–115) every admitted lemma has length ≥ 2 after
normalization and is not `"_"`; the entropy configuration
(`analyze_entropy.py` lines 91–98) guarantees only lower-casing and
exclusion of the placeholder `"_"`, and admits length-1 lemmas. -/
theorem claim6_admission_invariants :
    (∀ upos lem l, treebankAdmit upos lem = some l → 1 < l.length ∧ l ≠ "_")
    ∧ (∀ upos lem l, latinAdmit upos lem = some l → 1 < l.length ∧ l ≠ "_")
    ∧ (∀ upos lem l, entropyAdmit upos lem = some l → l ≠ "_") := by
  refine ⟨?_, ?_, ?_⟩
  · intro upos lem l h
    unfold treebankAdmit at h
    by_cases h1 : upos ∈ STOP_POS_treebank ∨ lem = ""
    · rw [if_pos h1] at h
      exact absurd h (by simp)
    · rw [if_neg h1] at h
      by_cases h2 : toLowerStr lem ∈ BLACKLIST_treebank
      · rw [if_pos h2] at h
        exact absurd h (by simp)
      · rw [if_neg h2] at h
        by_cases h3 : 1 < (toLowerStr lem).length ∧ toLowerStr lem ≠ "_"
        · rw [if_pos h3] at h
          rw [← Option.some_inj.mp h]
          exact h3
        · rw [if_neg h3] at h
          exact absurd h (by simp)
  · intro upos lem l h
    unfold latinAdmit at h
    by_cases h1 : upos ∈ STOP_POS_latin ∨ lem = ""
    · rw [if_pos h1] at h
      exact absurd h (by simp)
    · rw [if_neg h1] at h
      by_cases h2 : 1 < (stripNonAlpha (toLowerStr lem)).length
      · rw [if_pos h2] at h
        have hl : stripNonAlpha (toLowerStr lem) = l := Option.some_inj.mp h
        have hlen : 1 < l.length := by
          rw [← hl]
          exact h2
        refine ⟨hlen, ?_⟩
        intro heq
        rw [heq] at hlen
        exact absurd hlen (by decide)
      · rw [if_neg h2] at h
        exact absurd h (by simp)
  · intro upos lem l h
    unfold entropyAdmit at h
    by_cases h1 : upos ∉ STOP_POS_entropy ∧ toLowerStr lem ≠ "_"
    · rw [if_pos h1] at h
      rw [← Option.some_inj.mp h]
      exact h1.2
    · rw [if_neg h1] at h
      exact absurd h (by simp)

/-- Witness for C6: concrete admissions through all three filters. -/
theorem claim6_witness :
    (treebankAdmit "NOUN" "Rosa" = some "rosa"
      ∧ (1 < ("rosa" : String).length ∧ "rosa" ≠ "_"))
    ∧ (latinAdmit "NOUN" "Ro7sa" = some "rosa"
      ∧ (1 < ("rosa" : String).length ∧ "rosa" ≠ "_"))
    ∧ (entropyAdmit "NOUN" "Rosa" = some "rosa" ∧ "rosa" ≠ "_") :=
  ⟨⟨by decide, claim6_admission_invariants.1 "NOUN" "Rosa" "rosa" (by decide)⟩,
   ⟨by decide, claim6_admission_invariants.2.1 "NOUN" "Ro7sa" "rosa" (by decide)⟩,
   ⟨by decide, claim6_admission_invariants.2.2 "NOUN" "Rosa" "rosa" (by decide)⟩⟩

/-- Claim C7 (confirmed): `get_author` returns the label of the first rule
group (in the fixed priority order Cicero, Caesar, Vergil, Ovid, Jerome)
one of whose marker substrings occurs in the lowered concatenated metadata:
a group's label is returned exactly when one of its markers matches and no
marker of any earlier group does.  Empty metadata and metadata matching no
marker yield the sentinel `"Other"` (never an error), and any metadata whose
lowered concatenation contains `"phi0474"` classifies as `"Cicero"`. -/
theorem claim7_get_author :
    get_author [] = "Other"
    ∧ (∀ lines, containsSub "phi0474" (toLowerStr (String.intercalate " " lines)) →
        get_author lines = "Cicero")
    ∧ (∀ lines, anyMarker ciceroMarkers (toLowerStr (String.intercalate " " lines)) →
        get_author lines = "Cicero")
    ∧ (∀ lines, ¬ anyMarker ciceroMarkers (toLowerStr (String.intercalate " " lines)) →
        anyMarker caesarMarkers (toLowerStr (String.intercalate " " lines)) →
        get_author lines = "Caesar")
    ∧ (∀ lines, ¬ anyMarker ciceroMarkers (toLowerStr (String.intercalate " " lines)) →
        ¬ anyMarker caesarMarkers (toLowerStr (String.intercalate " " lines)) →
        anyMarker vergilMarkers (toLowerStr (String.intercalate " " lines)) →
        get_author lines = "Vergil")
    ∧ (∀ lines, ¬ anyMarker ciceroMarkers (toLowerStr (String.intercalate " " lines)) →
        ¬ anyMarker caesarMarkers (toLowerStr (String.intercalate " " lines)) →
        ¬ anyMarker vergilMarkers (toLowerStr (String.intercalate " " lines)) →
        anyMarker ovidMarkers (toLowerStr (String.intercalate " " lines)) →
        get_author lines = "Ovid")
    ∧ (∀ lines, ¬ anyMarker ciceroMarkers (toLowerStr (String.intercalate " " lines)) →
        ¬ anyMarker caesarMarkers (toLowerStr (String.intercalate " " lines)) →
        ¬ anyMarker vergilMarkers (toLowerStr (String.intercalate " " lines)) →
        ¬ anyMarker ovidMarkers (toLowerStr (String.intercalate " " lines)) →
        anyMarker jeromeMarkers (toLowerStr (String.intercalate " " lines)) →
        get_author lines = "Jerome (Vulgate)")
    ∧ (∀ lines, ¬ anyMarker ciceroMarkers (toLowerStr (String.intercalate " " lines)) →
        ¬ anyMarker caesarMarkers (toLowerStr (String.intercalate " " lines)) →
        ¬ anyMarker vergilMarkers (toLowerStr (String.intercalate " " lines)) →
        ¬ anyMarker ovidMarkers (toLowerStr (String.intercalate " " lines)) →
        ¬ anyMarker jeromeMarkers (toLowerStr (String.intercalate " " lines)) →
        get_author lines = "Other")
    ∧ (∀ lines,
        (∀ m ∈ allMarkers, ¬ containsSub m (toLowerStr (String.intercalate " " lines))) →
        get_author lines = "Other") := by
  have hcic : ∀ lines, anyMarker ciceroMarkers (toLowerStr (String.intercalate " " lines)) →
      get_author lines = "Cicero" := by
    intro lines h
    unfold get_author
    rw [if_pos h]
  have hcae : ∀ lines, ¬ anyMarker ciceroMarkers (toLowerStr (String.intercalate " " lines)) →
      anyMarker caesarMarkers (toLowerStr (String.intercalate " " lines)) →
      get_author lines = "Caesar" := by
    intro lines h1 h2
    unfold get_author
    rw [if_neg h1, if_pos h2]
  have hver : ∀ lines, ¬ anyMarker ciceroMarkers (toLowerStr (String.intercalate " " lines)) →
      ¬ anyMarker caesarMarkers (toLowerStr (String.intercalate " " lines)) →
      anyMarker vergilMarkers (toLowerStr (String.intercalate " " lines)) →
      get_author lines = "Vergil" := by
    intro lines h1 h2 h3
    unfold get_author
    rw [if_neg h1, if_neg h2, if_pos h3]
  have hovi : ∀ lines, ¬ anyMarker ciceroMarkers (toLowerStr (String.intercalate " " lines)) →
      ¬ anyMarker caesarMarkers (toLowerStr (String.intercalate " " lines)) →
      ¬ anyMarker vergilMarkers (toLowerStr (String.intercalate " " lines)) →
      anyMarker ovidMarkers (toLowerStr (String.intercalate " " lines)) →
      get_author lines = "Ovid" := by
    intro lines h1 h2 h3 h4
    unfold get_author
    rw [if_neg h1, if_neg h2, if_neg h3, if_pos h4]
  have hjer : ∀ lines, ¬ anyMarker ciceroMarkers (toLowerStr (String.intercalate " " lines)) →
      ¬ anyMarker caesarMarkers (toLowerStr (String.intercalate " " lines)) →
      ¬ anyMarker vergilMarkers (toLowerStr (String.intercalate " " lines)) →
      ¬ anyMarker ovidMarkers (toLowerStr (String.intercalate " " lines)) →
      anyMarker jeromeMarkers (toLowerStr (String.intercalate " " lines)) →
      get_author lines = "Jerome (Vulgate)" := by
    intro lines h1 h2 h3 h4 h5
    unfold get_author
    rw [if_neg h1, if_neg h2, if_neg h3, if_neg h4, if_pos h5]
  have hoth : ∀ lines, ¬ anyMarker ciceroMarkers (toLowerStr (String.intercalate " " lines)) →
      ¬ anyMarker caesarMarkers (toLowerStr (String.intercalate " " lines)) →
      ¬ anyMarker vergilMarkers (toLowerStr (String.intercalate " " lines)) →
      ¬ anyMarker ovidMarkers (toLowerStr (String.intercalate " " lines)) →
      ¬ anyMarker jeromeMarkers (toLowerStr (String.intercalate " " lines)) →
      get_author lines = "Other" := by
    intro lines h1 h2 h3 h4 h5
    unfold get_author
    rw [if_neg h1, if_neg h2, if_neg h3, if_neg h4, if_neg h5]
  refine ⟨by decide, ?_, hcic, hcae, hver, hovi, hjer, hoth, ?_⟩
  · intro lines h
    exact hcic lines ⟨"phi0474", by decide, h⟩
  · intro lines h
    have h1 : ¬ anyMarker ciceroMarkers (toLowerStr (String.intercalate " " lines)) := by
      rintro ⟨m, hm, hcon⟩
      refine h m ?_ hcon
      unfold allMarkers
      simp only [List.mem_append]
      tauto
    have h2 : ¬ anyMarker caesarMarkers (toLowerStr (String.intercalate " " lines)) := by
      rintro ⟨m, hm, hcon⟩
      refine h m ?_ hcon
      unfold allMarkers
      simp only [List.mem_append]
      tauto
    have h3 : ¬ anyMarker vergilMarkers (toLowerStr (String.intercalate " " lines)) := by
      rintro ⟨m, hm, hcon⟩
      refine h m ?_ hcon
      unfold allMarkers
      simp only [List.mem_append]
      tauto
    have h4 : ¬ anyMarker ovidMarkers (toLowerStr (String.intercalate " " lines)) := by
      rintro ⟨m, hm, hcon⟩
      refine h m ?_ hcon
      unfold allMarkers
      simp only [List.mem_append]
      tauto
    have h5 : ¬ anyMarker jeromeMarkers (toLowerStr (String.intercalate " " lines)) := by
      rintro ⟨m, hm, hcon⟩
      refine h m ?_ hcon
      unfold allMarkers
      simp only [List.mem_append]
      tauto
    exact hoth lines h1 h2 h3 h4 h5

/-- Witness for C7: the spec's two metadata blocks, a Caesar-only block
exercising the priority hypothesis of the second group, and a Jerome-only
block exercising the deepest branch of the chain. -/
theorem claim7_witness :
    (containsSub "phi0474" (toLowerStr (String.intercalate " " ["# source: phi0474"]))
      ∧ get_author ["# source: phi0474"] = "Cicero")
    ∧ (¬ anyMarker ciceroMarkers (toLowerStr (String.intercalate " " ["# source: phi0448"]))
      ∧ anyMarker caesarMarkers (toLowerStr (String.intercalate " " ["# source: phi0448"]))
      ∧ get_author ["# source: phi0448"] = "Caesar")
    ∧ (¬ anyMarker ciceroMarkers (toLowerStr (String.intercalate " " ["# source: vulgate"]))
      ∧ ¬ anyMarker caesarMarkers (toLowerStr (String.intercalate " " ["# source: vulgate"]))
      ∧ ¬ anyMarker vergilMarkers (toLowerStr (String.intercalate " " ["# source: vulgate"]))
      ∧ ¬ anyMarker ovidMarkers (toLowerStr (String.intercalate " " ["# source: vulgate"]))
      ∧ anyMarker jeromeMarkers (toLowerStr (String.intercalate " " ["# source: vulgate"]))
      ∧ get_author ["# source: vulgate"] = "Jerome (Vulgate)")
    ∧ ((∀ m ∈ allMarkers,
          ¬ containsSub m (toLowerStr (String.intercalate " " ["# note: unrelated"])))
      ∧ get_author ["# note: unrelated"] = "Other") :=
  ⟨⟨by decide, claim7_get_author.2.1 ["# source: phi0474"] (by decide)⟩,
   ⟨by decide, by decide,
    claim7_get_author.2.2.2.1 ["# source: phi0448"] (by decide) (by decide)⟩,
   ⟨by decide, by decide, by decide, by decide, by decide,
    claim7_get_author.2.2.2.2.2.2.1 ["# source: vulgate"]
      (by decide) (by decide) (by decide) (by decide) (by decide)⟩,
   ⟨by decide, claim7_get_author.2.2.2.2.2.2.2.2 ["# note: unrelated"] (by decide)⟩⟩

/-- Claim C9 (confirmed): for tables produced from an actual lemma stream
and any threshold ≥ 1, every scored record has a strictly positive log2
argument, so the defensive `except ValueError: pmi = 0` fallback is never
taken. -/
theorem claim9_log_argument_positive (op : Bool) (la : Nat) (s : List String)
    (minOcc : Nat) (hmo : 1 ≤ minOcc) (r : PMIRec)
    (hr : r ∈ pmiScores (countPairs op la s).1 (unigramTable s)
        (countPairs op la s).2 s.length minOcc) :
    0 < r.num ∧ 0 < r.den ∧ (0 : ℝ) < (r.num : ℝ) / (r.den : ℝ)
    ∧ (if (0 : ℝ) < (r.num : ℝ) / (r.den : ℝ)
        then Real.logb 2 ((r.num : ℝ) / (r.den : ℝ)) else 0)
      = Real.logb 2 ((r.num : ℝ) / (r.den : ℝ)) := by
  obtain ⟨hc, hnum, hden⟩ := pmiScores_stream_pos op la s minOcc hmo r hr
  have hreal : (0 : ℝ) < (r.num : ℝ) / (r.den : ℝ) :=
    div_pos (by exact_mod_cast hnum) (by exact_mod_cast hden)
  exact ⟨hnum, hden, hreal, if_pos hreal⟩

/-- Witness for C9: the single record scored from the stream
`["aa", "bb"]`. -/
theorem claim9_witness :
    (1 : Nat) ≤ 1
    ∧ (⟨("aa", "bb"), 4, 1, 1⟩ : PMIRec) ∈ pmiScores (countPairs true 5 ["aa", "bb"]).1
        (unigramTable ["aa", "bb"]) (countPairs true 5 ["aa", "bb"]).2
        (["aa", "bb"] : List String).length 1
    ∧ (0 < (⟨("aa", "bb"), 4, 1, 1⟩ : PMIRec).num
        ∧ 0 < (⟨("aa", "bb"), 4, 1, 1⟩ : PMIRec).den
        ∧ (0 : ℝ) < ((⟨("aa", "bb"), 4, 1, 1⟩ : PMIRec).num : ℝ)
            / ((⟨("aa", "bb"), 4, 1, 1⟩ : PMIRec).den : ℝ)
        ∧ (if (0 : ℝ) < ((⟨("aa", "bb"), 4, 1, 1⟩ : PMIRec).num : ℝ)
              / ((⟨("aa", "bb"), 4, 1, 1⟩ : PMIRec).den : ℝ)
            then Real.logb 2 (((⟨("aa", "bb"), 4, 1, 1⟩ : PMIRec).num : ℝ)
              / ((⟨("aa", "bb"), 4, 1, 1⟩ : PMIRec).den : ℝ)) else 0)
          = Real.logb 2 (((⟨("aa", "bb"), 4, 1, 1⟩ : PMIRec).num : ℝ)
              / ((⟨("aa", "bb"), 4, 1, 1⟩ : PMIRec).den : ℝ))) :=
  ⟨le_refl 1, by decide,
   claim9_log_argument_positive true 5 ["aa", "bb"] 1 (le_refl 1)
     ⟨("aa", "bb"), 4, 1, 1⟩ (by decide)⟩

end Colloc
